import Mathlib

/-!
Verification of the flash-attention repository's tile-size selection policy,
log-filter scripts and bracket-token lint against their specification.

The tile-size selector (`tile_size_fwd_sm90` in `hopper/tile_size.h`) is not
part of the visible sources; only its test
(`tests/hopper/test_tile_size_shared_memory.py`) is.  Following the spec, the
policy is modelled here as a pure function `select_tile_sizes` over explicit
configuration and result value types.  The budget-estimate formula and the
shared-memory limit are taken from the test file, which states them
explicitly.  The log filters (`hopper/filter_errors.py`,
`hopper/filter_warnings.py`) and the bracket checker
(`tools/lint/check_tokens.py`) are embedded directly from their sources.
-/

namespace FlashAttn

/-- Shared-memory ceiling, from `SMEM_LIMIT_BYTES` in
`tests/hopper/test_tile_size_shared_memory.py`. -/
def SMEM_LIMIT_BYTES : Nat := 101376

/-- Embeds `estimate_smem_bytes` from
`tests/hopper/test_tile_size_shared_memory.py`:
`buffering = 1 if (headdim_v >= 256 or headdim + headdim_v >= 512) else 2`,
then `buffering * (block_m + block_n) * (headdim + headdim_v) * element_size`. -/
def estimate_smem_bytes (block_m block_n headdim headdim_v element_size : Nat) : Nat :=
  let buffering : Nat := if headdim_v ≥ 256 ∨ headdim + headdim_v ≥ 512 then 1 else 2
  buffering * (block_m + block_n) * (headdim + headdim_v) * element_size

/-- The spec's own words for the budget formula (section 3 of the spec):
`buffering × (block_m + block_n) × (head_dim + head_dim_v) × element_size_bytes`
with `buffering = 1` if `head_dim_v ≥ 256` or `head_dim + head_dim_v ≥ 512`,
else `buffering = 2`.  Kept separate from `estimate_smem_bytes` so the two can
be compared. -/
def spec_smem_formula (block_m block_n head_dim head_dim_v element_size_bytes : Nat) : Nat :=
  (if head_dim_v ≥ 256 ∨ head_dim + head_dim_v ≥ 512 then 1 else 2) *
    (block_m + block_n) * (head_dim + head_dim_v) * element_size_bytes

/-- Modelled from the spec: `KernelShapeConfig` (spec section 3), the input
value type of the tile-size policy.  Dimensions are natural numbers; the
spec's `PositiveInt` constraint is enforced by `select_tile_sizes` itself. -/
structure KernelShapeConfig where
  head_dim : Nat
  head_dim_v : Nat
  is_causal : Bool
  is_local : Bool
  element_size_bytes : Nat
  v_colmajor : Bool
  paged_kv_non_tma : Bool
  softcap : Bool
deriving DecidableEq

/-- Modelled from the spec: `TileDims` (spec section 3), the output value type. -/
structure TileDims where
  block_m : Nat
  block_n : Nat
deriving DecidableEq

/-- Modelled from the spec: the error taxonomy of spec section 7. -/
inductive TileError where
  | InvalidConfiguration
  | BudgetUnsatisfiable
deriving DecidableEq

/-- Modelled from the spec: the "monotonically-ordered candidate ladder" of
spec section 4 step 4.  The exact historical values are an open question in
the spec (section 9); this concrete ladder is ordered by decreasing
`block_m + block_n` and ends in the minimal positive tile. -/
def candidate_ladder : List TileDims :=
  [⟨192, 192⟩, ⟨192, 128⟩, ⟨128, 128⟩, ⟨128, 96⟩, ⟨128, 64⟩, ⟨96, 64⟩,
   ⟨64, 64⟩, ⟨64, 32⟩, ⟨32, 32⟩, ⟨16, 16⟩, ⟨8, 8⟩, ⟨4, 4⟩, ⟨2, 2⟩, ⟨1, 1⟩]

/-- Whether a candidate tile satisfies the shared-memory budget for a
configuration (spec section 3 invariant, section 4 step 4). -/
def fits (cfg : KernelShapeConfig) (t : TileDims) : Bool :=
  decide (estimate_smem_bytes t.block_m t.block_n cfg.head_dim cfg.head_dim_v
    cfg.element_size_bytes ≤ SMEM_LIMIT_BYTES)

/-- Modelled from the spec: baseline ladder position by head-dimension bucket
(spec section 4 step 1, "larger head dimensions force smaller tiles"). -/
def baseline_start (head_dim head_dim_v : Nat) : Nat :=
  if head_dim + head_dim_v ≤ 128 then 0
  else if head_dim + head_dim_v ≤ 256 then 1
  else if head_dim + head_dim_v ≤ 384 then 2
  else if head_dim + head_dim_v ≤ 576 then 3
  else 4

/-- Modelled from the spec: starting position in the candidate ladder after
the masking-mode adjustment (section 4 step 2) and the feature adjustments
for `v_colmajor`, `paged_kv_non_tma` and `softcap` (section 4 step 3), each
of which may shrink the candidate tile.  Capped so the minimal candidate is
always still considered. -/
def start_index (cfg : KernelShapeConfig) : Nat :=
  let base := baseline_start cfg.head_dim cfg.head_dim_v
  let mask := if cfg.is_causal || cfg.is_local then 1 else 0
  let feat := (if cfg.v_colmajor then 1 else 0) + (if cfg.paged_kv_non_tma then 1 else 0) +
    (if cfg.softcap then 1 else 0)
  min (base + mask + feat) (candidate_ladder.length - 1)

/-- Modelled from the spec: step down the ladder until the budget estimate
fits (spec section 4 step 4); if no candidate fits, the configuration is
unsupportable (spec section 7, `BudgetUnsatisfiable`). -/
def descend (cfg : KernelShapeConfig) : List TileDims → Except TileError TileDims
  | [] => .error .BudgetUnsatisfiable
  | t :: rest => if fits cfg t then .ok t else descend cfg rest

/-- Modelled from the spec: `select_tile_sizes` (spec section 4.1), the pure
tile-size policy standing in for the absent `tile_size_fwd_sm90`.  Rejects
mutually exclusive masking flags and non-positive dimensions
(`InvalidConfiguration`), then walks the candidate ladder from the
shape/feature-determined starting point. -/
def select_tile_sizes (cfg : KernelShapeConfig) : Except TileError TileDims :=
  if cfg.is_causal && cfg.is_local then .error .InvalidConfiguration
  else if cfg.head_dim = 0 ∨ cfg.head_dim_v = 0 ∨ cfg.element_size_bytes = 0 then
    .error .InvalidConfiguration
  else descend cfg (candidate_ladder.drop (start_index cfg))

/-- The head-dimension grid exercised by the test. -/
def head_dim_grid : List Nat := [64, 96, 128, 160, 192, 256, 320]

/-- The value-dimension grid exercised by the test. -/
def head_dim_v_grid : List Nat := [64, 96, 128, 160, 192, 256, 512]

/-- Whether `pat` occurs at the start of `s`; the building block for Python's
substring test `pat in s`. -/
def leadsWith : List Char → List Char → Bool
  | [], _ => true
  | _ :: _, [] => false
  | p :: ps, c :: cs => decide (p = c) && leadsWith ps cs

/-- Whether `pat` occurs as a contiguous substring of `s`, as Python's
`pat in s` does on strings. -/
def hasSub (pat : List Char) : List Char → Bool
  | [] => pat.isEmpty
  | c :: cs => leadsWith pat (c :: cs) || hasSub pat cs

/-- The pattern matched by `hopper/filter_errors.py`. -/
def errorPat : List Char := "error:".toList

/-- The pattern matched by `hopper/filter_warnings.py`. -/
def warningPat : List Char := "warning:".toList

/-- Whether a line is written by the filter scripts: its lowercased text
contains `pat`, mirroring `if pat in line.lower():`. -/
def lineMatches (pat : List Char) (line : List Char) : Bool :=
  hasSub pat (line.map Char.toLower)

/-- The loop body of `extract_unique_error_lines` in `hopper/filter_errors.py`
and `hopper/filter_warnings.py` (both scripts are identical except for the
pattern): `seen` collects lines already written, a line is written when its
lowercased text contains the pattern and it has not been seen. -/
def extract_aux (pat : List Char) (seen : List (List Char)) :
    List (List Char) → List (List Char)
  | [] => []
  | l :: ls =>
    if lineMatches pat l then
      if l ∈ seen then extract_aux pat seen ls
      else l :: extract_aux pat (l :: seen) ls
    else extract_aux pat seen ls

/-- Embeds `extract_unique_error_lines` of `hopper/filter_errors.py`, acting
on the input's lines and returning the lines written to the output. -/
def extract_unique_error_lines (lines : List (List Char)) : List (List Char) :=
  extract_aux errorPat [] lines

/-- Embeds `extract_unique_error_lines` of `hopper/filter_warnings.py`
(same code, pattern `"warning:"`). -/
def extract_unique_warning_lines (lines : List (List Char)) : List (List Char) :=
  extract_aux warningPat [] lines

/-- Position of the first occurrence of `a` in a list of lines (length of
the list when absent); used to state "in order of first occurrence". -/
def firstIdx (a : List Char) : List (List Char) → Nat
  | [] => 0
  | b :: bs => if a = b then 0 else firstIdx a bs + 1

/-- `ch in BRACKETS` in `tools/lint/check_tokens.py`. -/
def isOpener (c : Char) : Bool :=
  decide (c = '{') || decide (c = '[') || decide (c = '(')

/-- `BRACKETS[ch]` in `tools/lint/check_tokens.py`. -/
def closerFor (c : Char) : Char :=
  if c = '{' then '}' else if c = '[' then ']' else ')'

/-- `ch in BRACKETS.values()` in `tools/lint/check_tokens.py`. -/
def isCloser (c : Char) : Bool :=
  decide (c = '}') || decide (c = ']') || decide (c = ')')

/-- A bracket character, opener or closer. -/
def isBracketTok (c : Char) : Bool := isOpener c || isCloser c

/-- The problems reported by `check_file` in `tools/lint/check_tokens.py`,
as structured values rather than formatted strings: `unexpected` for
`"unexpected token ch at offset idx"`, `unterminated` for
`"unterminated tokens stack"`. -/
inductive Problem where
  | unexpected (ch : Char) (idx : Nat)
  | unterminated (stack : List Char)
deriving DecidableEq

/-- The character loop of `check_file`: walks the text with the running
offset, the stack of expected closers (head is the top, Python's
`stack[-1]`), and the accumulated problems.  An opener pushes its closer;
a closer either pops a matching top or records an `unexpected` problem
(leaving the stack unchanged, as the Python does); other characters are
ignored. -/
def scanChars : List Char → Nat → List Char → List Problem → List Char × List Problem
  | [], _, stack, problems => (stack, problems)
  | ch :: rest, idx, stack, problems =>
    if isOpener ch then
      scanChars rest (idx + 1) (closerFor ch :: stack) problems
    else if isCloser ch then
      match stack with
      | [] => scanChars rest (idx + 1) [] (problems ++ [Problem.unexpected ch idx])
      | top :: stack' =>
        if top = ch then scanChars rest (idx + 1) stack' problems
        else scanChars rest (idx + 1) (top :: stack') (problems ++ [Problem.unexpected ch idx])
    else scanChars rest (idx + 1) stack problems

/-- Embeds `check_file` of `tools/lint/check_tokens.py` on the file's text:
runs the character loop from an empty stack and no problems, then reports
`unterminated` if the stack is non-empty at the end. -/
def check_file (text : List Char) : List Problem :=
  let r := scanChars text 0 [] []
  if r.1.isEmpty then r.2 else r.2 ++ [Problem.unterminated r.1]

/-- The error-free bracket automaton: the stack evolution of `scanChars` on
runs that record no problem, `none` as soon as a problem would be recorded. -/
def scanOk : List Char → List Char → Option (List Char)
  | stack, [] => some stack
  | stack, ch :: rest =>
    if isOpener ch then scanOk (closerFor ch :: stack) rest
    else if isCloser ch then
      match stack with
      | [] => none
      | top :: stack' => if top = ch then scanOk stack' rest else none
    else scanOk stack rest

/-- Balanced, properly nested bracket sequences (the Dyck language over the
three bracket pairs): empty, a balanced body wrapped in a matching pair, or
two balanced sequences in a row. -/
inductive Balanced : List Char → Prop where
  | nil : Balanced []
  | wrap {c : Char} {w : List Char} :
      isOpener c = true → Balanced w → Balanced (c :: w ++ [closerFor c])
  | append {u v : List Char} :
      Balanced u → Balanced v → Balanced (u ++ v)

/-- Helper for the completeness direction of the bracket checker: the input
consumes the stack of expected closers, interleaving balanced segments, and
ends balanced. -/
inductive ClosesStack : List Char → List Char → Prop where
  | base {bs : List Char} : Balanced bs → ClosesStack [] bs
  | step {c : Char} {s : List Char} {u v : List Char} :
      Balanced u → ClosesStack s v → ClosesStack (c :: s) (u ++ c :: v)

theorem fits_iff {cfg : KernelShapeConfig} {t : TileDims} :
    fits cfg t = true ↔
      estimate_smem_bytes t.block_m t.block_n cfg.head_dim cfg.head_dim_v
        cfg.element_size_bytes ≤ SMEM_LIMIT_BYTES := by
  simp [fits]

theorem descend_ok_fits {cfg : KernelShapeConfig} {l : List TileDims} {t : TileDims}
    (h : descend cfg l = .ok t) : fits cfg t = true := by
  induction l with
  | nil => simp [descend] at h
  | cons a rest ih =>
    by_cases ha : fits cfg a = true
    · simp [descend, ha] at h
      simpa [← h] using ha
    · simp only [Bool.not_eq_true] at ha
      simp only [descend, ha, Bool.false_eq_true, if_false] at h
      exact ih h

theorem descend_ok_mem {cfg : KernelShapeConfig} {l : List TileDims} {t : TileDims}
    (h : descend cfg l = .ok t) : t ∈ l := by
  induction l with
  | nil => simp [descend] at h
  | cons a rest ih =>
    by_cases ha : fits cfg a = true
    · simp [descend, ha] at h
      simp [h]
    · simp only [Bool.not_eq_true] at ha
      simp only [descend, ha, Bool.false_eq_true, if_false] at h
      exact List.mem_cons_of_mem _ (ih h)

theorem descend_ok_of_exists {cfg : KernelShapeConfig} {l : List TileDims}
    (h : ∃ t ∈ l, fits cfg t = true) : ∃ t, descend cfg l = .ok t := by
  induction l with
  | nil => simp at h
  | cons a rest ih =>
    by_cases ha : fits cfg a = true
    · exact ⟨a, by simp [descend, ha]⟩
    · simp only [Bool.not_eq_true] at ha
      obtain ⟨t, htm, htf⟩ := h
      rcases List.mem_cons.mp htm with rfl | htr
      · rw [ha] at htf; cases htf
      · obtain ⟨t', ht'⟩ := ih ⟨t, htr, htf⟩
        exact ⟨t', by simp [descend, ha, ht']⟩

theorem descend_error_all {cfg : KernelShapeConfig} {l : List TileDims} {e : TileError}
    (h : descend cfg l = .error e) : ∀ t ∈ l, fits cfg t = false := by
  induction l with
  | nil => simp
  | cons a rest ih =>
    by_cases ha : fits cfg a = true
    · simp [descend, ha] at h
    · simp only [Bool.not_eq_true] at ha
      simp only [descend, ha, Bool.false_eq_true, if_false] at h
      intro t htm
      rcases List.mem_cons.mp htm with rfl | htr
      · exact ha
      · exact ih h t htr

theorem min_tile_mem_drop : ∀ k : Nat, k ≤ 13 →
    (⟨1, 1⟩ : TileDims) ∈ candidate_ladder.drop k := by decide

theorem start_index_le (cfg : KernelShapeConfig) : start_index cfg ≤ 13 := by
  simp only [start_index]
  have h : candidate_ladder.length - 1 = 13 := rfl
  rw [h]
  exact Nat.min_le_right _ _

theorem ladder_min_sum : ∀ t ∈ candidate_ladder, 2 ≤ t.block_m + t.block_n := by
  decide

theorem estimate_min_le {m n d dv e : Nat} (h2 : 2 ≤ m + n) :
    estimate_smem_bytes 1 1 d dv e ≤ estimate_smem_bytes m n d dv e := by
  simp only [estimate_smem_bytes]
  have h2' : 1 + 1 ≤ m + n := h2
  gcongr

theorem select_ok_of_min_fits (cfg : KernelShapeConfig)
    (hmask : (cfg.is_causal && cfg.is_local) = false)
    (hdims : ¬(cfg.head_dim = 0 ∨ cfg.head_dim_v = 0 ∨ cfg.element_size_bytes = 0))
    (hfit : fits cfg ⟨1, 1⟩ = true) :
    ∃ t, select_tile_sizes cfg = .ok t ∧ fits cfg t = true := by
  have hmem : (⟨1, 1⟩ : TileDims) ∈ candidate_ladder.drop (start_index cfg) :=
    min_tile_mem_drop _ (start_index_le cfg)
  obtain ⟨t, ht⟩ := descend_ok_of_exists ⟨⟨1, 1⟩, hmem, hfit⟩
  refine ⟨t, ?_, descend_ok_fits ht⟩
  simp [select_tile_sizes, hmask, hdims, ht]

theorem select_ok_inversion {cfg : KernelShapeConfig} {t : TileDims}
    (h : select_tile_sizes cfg = .ok t) :
    (cfg.is_causal && cfg.is_local) = false ∧
      ¬(cfg.head_dim = 0 ∨ cfg.head_dim_v = 0 ∨ cfg.element_size_bytes = 0) ∧
      descend cfg (candidate_ladder.drop (start_index cfg)) = .ok t := by
  by_cases hb : (cfg.is_causal && cfg.is_local) = true
  · simp [select_tile_sizes, hb] at h
  · have hb' : (cfg.is_causal && cfg.is_local) = false := by
      simpa using hb
    by_cases hx : cfg.head_dim = 0 ∨ cfg.head_dim_v = 0 ∨ cfg.element_size_bytes = 0
    · simp [select_tile_sizes, hb', hx] at h
    · exact ⟨hb', hx, by simpa [select_tile_sizes, hb', hx] using h⟩

theorem descend_error_of_all {cfg : KernelShapeConfig} {l : List TileDims}
    (h : ∀ t ∈ l, fits cfg t = false) :
    descend cfg l = .error .BudgetUnsatisfiable := by
  induction l with
  | nil => rfl
  | cons a rest ih =>
    have ha := h a (List.mem_cons_self a rest)
    simp [descend, ha, ih fun t ht => h t (List.mem_cons_of_mem _ ht)]

/-- C1: for every configuration on the tested grid (head dimensions from the
two grids, the masking flags not both true, `element_size_bytes = 2`,
`v_colmajor = false`, `softcap = false`, either value of
`paged_kv_non_tma`), `select_tile_sizes` returns tile dimensions whose
buffering-aware shared-memory estimate is at most 101376 bytes. -/
theorem tile_sizes_within_smem_budget_on_grid
    (d dv : Nat) (is_causal is_local paged : Bool)
    (hd : d ∈ head_dim_grid) (hdv : dv ∈ head_dim_v_grid)
    (hmask : ¬(is_causal = true ∧ is_local = true)) :
    ∃ t, select_tile_sizes ⟨d, dv, is_causal, is_local, 2, false, paged, false⟩ = .ok t ∧
      estimate_smem_bytes t.block_m t.block_n d dv 2 ≤ SMEM_LIMIT_BYTES := by
  have hdb : 64 ≤ d ∧ d ≤ 320 := by
    have hall : ∀ x ∈ head_dim_grid, 64 ≤ x ∧ x ≤ 320 := by decide
    exact hall d hd
  have hdvb : 64 ≤ dv ∧ dv ≤ 512 := by
    have hall : ∀ x ∈ head_dim_v_grid, 64 ≤ x ∧ x ≤ 512 := by decide
    exact hall dv hdv
  have hmask' : (is_causal && is_local) = false := by
    cases is_causal <;> cases is_local <;> simp_all
  have hest : estimate_smem_bytes 1 1 d dv 2 ≤ SMEM_LIMIT_BYTES := by
    simp only [estimate_smem_bytes, SMEM_LIMIT_BYTES]
    split <;> omega
  have hfit : fits ⟨d, dv, is_causal, is_local, 2, false, paged, false⟩ ⟨1, 1⟩ = true := by
    rw [fits_iff]
    exact hest
  obtain ⟨t, hsel, hf⟩ :=
    select_ok_of_min_fits ⟨d, dv, is_causal, is_local, 2, false, paged, false⟩ hmask'
      (by show ¬(d = 0 ∨ dv = 0 ∨ (2 : Nat) = 0); omega) hfit
  exact ⟨t, hsel, fits_iff.mp hf⟩

theorem tile_sizes_within_smem_budget_on_grid_witness :
    ∃ t, select_tile_sizes ⟨64, 96, true, false, 2, false, false, false⟩ = .ok t ∧
      estimate_smem_bytes t.block_m t.block_n 64 96 2 ≤ SMEM_LIMIT_BYTES :=
  tile_sizes_within_smem_budget_on_grid 64 96 true false false (by decide) (by decide)
    (by decide)

/-- C2: the shared-memory estimate used by the budget invariant equals the
spec's formula `buffering × (block_m + block_n) × (head_dim + head_dim_v) ×
element_size_bytes`, with `buffering = 1` iff `head_dim_v ≥ 256` or
`head_dim + head_dim_v ≥ 512`, else `2`, for all positive arguments. -/
theorem smem_estimate_matches_spec_formula (m n d dv e : Nat)
    (_hm : 0 < m) (_hn : 0 < n) (_hd : 0 < d) (_hdv : 0 < dv) (_he : 0 < e) :
    estimate_smem_bytes m n d dv e = spec_smem_formula m n d dv e := rfl

theorem smem_estimate_matches_spec_formula_witness :
    estimate_smem_bytes 128 64 64 64 2 = spec_smem_formula 128 64 64 64 2 :=
  smem_estimate_matches_spec_formula 128 64 64 64 2 (by decide) (by decide) (by decide)
    (by decide) (by decide)

/-- C3: for every shape, calling `select_tile_sizes` with both `is_causal`
and `is_local` true yields `InvalidConfiguration`; the call never silently
returns tile dimensions for that flag combination. -/
theorem causal_and_local_always_rejected (cfg : KernelShapeConfig)
    (hc : cfg.is_causal = true) (hl : cfg.is_local = true) :
    select_tile_sizes cfg = .error .InvalidConfiguration := by
  simp [select_tile_sizes, hc, hl]

theorem causal_and_local_always_rejected_witness :
    select_tile_sizes ⟨64, 64, true, true, 2, false, false, false⟩ =
      .error .InvalidConfiguration :=
  causal_and_local_always_rejected ⟨64, 64, true, true, 2, false, false, false⟩ rfl rfl

/-- C4: the maximal-footprint grid configuration `head_dim = 320`,
`head_dim_v = 512`, non-causal, non-local, `paged_kv_non_tma = true`,
`element_size_bytes = 2` returns tile dimensions whose buffering-aware
estimate (buffering is 1 for this shape) is at most 101376 bytes. -/
theorem boundary_config_within_budget :
    ∃ t, select_tile_sizes ⟨320, 512, false, false, 2, false, true, false⟩ = .ok t ∧
      estimate_smem_bytes t.block_m t.block_n 320 512 2 ≤ SMEM_LIMIT_BYTES :=
  ⟨⟨16, 16⟩, rfl, by decide⟩

/-- C5: starting from any accepted configuration, enabling any one of
`v_colmajor`, `paged_kv_non_tma` or `softcap` (all other fields fixed) still
yields tile dimensions whose budget estimate is within the ceiling. -/
theorem feature_flip_preserves_budget (cfg : KernelShapeConfig) (t : TileDims)
    (hsel : select_tile_sizes cfg = .ok t) :
    (cfg.v_colmajor = false →
      ∃ t2, select_tile_sizes { cfg with v_colmajor := true } = .ok t2 ∧
        estimate_smem_bytes t2.block_m t2.block_n cfg.head_dim cfg.head_dim_v
          cfg.element_size_bytes ≤ SMEM_LIMIT_BYTES) ∧
    (cfg.paged_kv_non_tma = false →
      ∃ t2, select_tile_sizes { cfg with paged_kv_non_tma := true } = .ok t2 ∧
        estimate_smem_bytes t2.block_m t2.block_n cfg.head_dim cfg.head_dim_v
          cfg.element_size_bytes ≤ SMEM_LIMIT_BYTES) ∧
    (cfg.softcap = false →
      ∃ t2, select_tile_sizes { cfg with softcap := true } = .ok t2 ∧
        estimate_smem_bytes t2.block_m t2.block_n cfg.head_dim cfg.head_dim_v
          cfg.element_size_bytes ≤ SMEM_LIMIT_BYTES) := by
  obtain ⟨hmask, hdims, hdesc⟩ := select_ok_inversion hsel
  have htl : t ∈ candidate_ladder := List.drop_subset _ _ (descend_ok_mem hdesc)
  have hest : estimate_smem_bytes 1 1 cfg.head_dim cfg.head_dim_v cfg.element_size_bytes ≤
      SMEM_LIMIT_BYTES :=
    le_trans (estimate_min_le (ladder_min_sum t htl)) (fits_iff.mp (descend_ok_fits hdesc))
  refine ⟨fun _h => ?_, fun _h => ?_, fun _h => ?_⟩
  · obtain ⟨t2, hs2, hf2⟩ := select_ok_of_min_fits { cfg with v_colmajor := true } hmask hdims
      (by rw [fits_iff]; exact hest)
    exact ⟨t2, hs2, fits_iff.mp hf2⟩
  · obtain ⟨t2, hs2, hf2⟩ := select_ok_of_min_fits { cfg with paged_kv_non_tma := true } hmask
      hdims (by rw [fits_iff]; exact hest)
    exact ⟨t2, hs2, fits_iff.mp hf2⟩
  · obtain ⟨t2, hs2, hf2⟩ := select_ok_of_min_fits { cfg with softcap := true } hmask hdims
      (by rw [fits_iff]; exact hest)
    exact ⟨t2, hs2, fits_iff.mp hf2⟩

theorem feature_flip_preserves_budget_witness :
    ∃ t2, select_tile_sizes ⟨64, 64, false, false, 2, false, false, true⟩ = .ok t2 ∧
      estimate_smem_bytes t2.block_m t2.block_n 64 64 2 ≤ SMEM_LIMIT_BYTES :=
  (feature_flip_preserves_budget ⟨64, 64, false, false, 2, false, false, false⟩ ⟨128, 64⟩
    rfl).2.2 rfl

/-- C6 counterexample: a positive configuration with no masking conflict but
oversized head dimensions (`head_dim = 25400`, `head_dim_v = 64`) makes
every ladder candidate exceed the 101376-byte ceiling, so `select_tile_sizes`
raises `BudgetUnsatisfiable` instead of returning tile dimensions. -/
theorem oversized_config_raises_budget_unsatisfiable :
    select_tile_sizes ⟨25400, 64, false, false, 2, false, false, false⟩ =
      .error .BudgetUnsatisfiable := rfl

/-- C6 amended: for every configuration with positive dimensions and not both
masking flags set, if the minimal ladder candidate fits the budget formula
(true across and near the tested grid) then `select_tile_sizes` returns tile
dimensions satisfying the budget formula; when even the minimal candidate
exceeds the ceiling, it raises `BudgetUnsatisfiable` instead. -/
theorem select_total_for_positive_dims (cfg : KernelShapeConfig)
    (hmask : ¬(cfg.is_causal = true ∧ cfg.is_local = true))
    (hd : 0 < cfg.head_dim) (hdv : 0 < cfg.head_dim_v)
    (he : 0 < cfg.element_size_bytes) :
    (estimate_smem_bytes 1 1 cfg.head_dim cfg.head_dim_v cfg.element_size_bytes ≤
        SMEM_LIMIT_BYTES →
      ∃ t, select_tile_sizes cfg = .ok t ∧
        estimate_smem_bytes t.block_m t.block_n cfg.head_dim cfg.head_dim_v
          cfg.element_size_bytes ≤ SMEM_LIMIT_BYTES) ∧
    (¬ estimate_smem_bytes 1 1 cfg.head_dim cfg.head_dim_v cfg.element_size_bytes ≤
        SMEM_LIMIT_BYTES →
      select_tile_sizes cfg = .error .BudgetUnsatisfiable) := by
  have hmask' : (cfg.is_causal && cfg.is_local) = false := by
    cases hc : cfg.is_causal <;> cases hl : cfg.is_local <;> simp_all
  have hdims : ¬(cfg.head_dim = 0 ∨ cfg.head_dim_v = 0 ∨ cfg.element_size_bytes = 0) := by
    omega
  constructor
  · intro hle
    obtain ⟨t, hsel, hf⟩ := select_ok_of_min_fits cfg hmask' hdims (by rw [fits_iff]; exact hle)
    exact ⟨t, hsel, fits_iff.mp hf⟩
  · intro hgt
    have hall : ∀ t ∈ candidate_ladder.drop (start_index cfg), fits cfg t = false := by
      intro t ht
      cases hft : fits cfg t
      · rfl
      · exact absurd
          (le_trans (estimate_min_le (ladder_min_sum t (List.drop_subset _ _ ht)))
            (fits_iff.mp hft)) hgt
    simp [select_tile_sizes, hmask', hdims, descend_error_of_all hall]

theorem select_total_for_positive_dims_witness :
    ∃ t, select_tile_sizes ⟨100, 100, false, false, 2, false, false, false⟩ = .ok t ∧
      estimate_smem_bytes t.block_m t.block_n 100 100 2 ≤ SMEM_LIMIT_BYTES :=
  (select_total_for_positive_dims ⟨100, 100, false, false, 2, false, false, false⟩
    (by decide) (by decide) (by decide) (by decide)).1 (by decide)

/-- C7: non-positive dimensions are rejected with `InvalidConfiguration`;
every call either returns tile dimensions or raises one of the two errors
(no partial result); and `BudgetUnsatisfiable` occurs only when no candidate
in the ladder satisfies the shared-memory formula. -/
theorem select_error_semantics (cfg : KernelShapeConfig) :
    (cfg.head_dim = 0 ∨ cfg.head_dim_v = 0 ∨ cfg.element_size_bytes = 0 →
      select_tile_sizes cfg = .error .InvalidConfiguration) ∧
    ((∃ t, select_tile_sizes cfg = .ok t) ∨ ∃ e, select_tile_sizes cfg = .error e) ∧
    (select_tile_sizes cfg = .error .BudgetUnsatisfiable →
      ∀ t ∈ candidate_ladder, fits cfg t = false) := by
  refine ⟨?_, ?_, ?_⟩
  · intro hx
    by_cases hb : (cfg.is_causal && cfg.is_local) = true
    · simp [select_tile_sizes, hb]
    · have hb' : (cfg.is_causal && cfg.is_local) = false := by simpa using hb
      simp [select_tile_sizes, hb', hx]
  · cases h : select_tile_sizes cfg with
    | error e => exact Or.inr ⟨e, rfl⟩
    | ok t => exact Or.inl ⟨t, rfl⟩
  · intro h
    by_cases hb : (cfg.is_causal && cfg.is_local) = true
    · simp [select_tile_sizes, hb] at h
    · have hb' : (cfg.is_causal && cfg.is_local) = false := by simpa using hb
      by_cases hx : cfg.head_dim = 0 ∨ cfg.head_dim_v = 0 ∨ cfg.element_size_bytes = 0
      · simp [select_tile_sizes, hb', hx] at h
      · have hdesc : descend cfg (candidate_ladder.drop (start_index cfg)) =
            .error .BudgetUnsatisfiable := by
          simpa [select_tile_sizes, hb', hx] using h
        have h11 : fits cfg ⟨1, 1⟩ = false :=
          descend_error_all hdesc _ (min_tile_mem_drop _ (start_index_le cfg))
        intro t htl
        cases hft : fits cfg t
        · rfl
        · exfalso
          have h11' : fits cfg ⟨1, 1⟩ = true := by
            rw [fits_iff]
            exact le_trans (estimate_min_le (ladder_min_sum t htl)) (fits_iff.mp hft)
          rw [h11'] at h11
          cases h11

theorem select_error_semantics_witness :
    select_tile_sizes ⟨0, 64, false, false, 2, false, false, false⟩ =
        .error .InvalidConfiguration ∧
      fits ⟨25400, 64, false, false, 2, false, false, false⟩ ⟨192, 192⟩ = false :=
  ⟨(select_error_semantics ⟨0, 64, false, false, 2, false, false, false⟩).1 (Or.inl rfl),
   (select_error_semantics ⟨25400, 64, false, false, 2, false, false, false⟩).2.2 rfl
     ⟨192, 192⟩ (by decide)⟩

/-- C8: `select_tile_sizes` is deterministic and referentially transparent:
field-by-field equal configurations yield identical results, and the result
depends only on the input configuration. -/
theorem select_deterministic (c1 c2 : KernelShapeConfig)
    (h1 : c1.head_dim = c2.head_dim) (h2 : c1.head_dim_v = c2.head_dim_v)
    (h3 : c1.is_causal = c2.is_causal) (h4 : c1.is_local = c2.is_local)
    (h5 : c1.element_size_bytes = c2.element_size_bytes)
    (h6 : c1.v_colmajor = c2.v_colmajor)
    (h7 : c1.paged_kv_non_tma = c2.paged_kv_non_tma)
    (h8 : c1.softcap = c2.softcap) :
    select_tile_sizes c1 = select_tile_sizes c2 := by
  have hc : c1 = c2 := by
    cases c1
    cases c2
    simp_all
  rw [hc]

theorem select_deterministic_witness :
    select_tile_sizes ⟨64, 64, false, false, 2, false, false, false⟩ =
      select_tile_sizes ⟨64, 64, false, false, 2, false, false, false⟩ :=
  select_deterministic _ _ rfl rfl rfl rfl rfl rfl rfl rfl

theorem extract_aux_cons_matched_seen {pat a : List Char} {seen rest : List (List Char)}
    (hm : lineMatches pat a = true) (hs : a ∈ seen) :
    extract_aux pat seen (a :: rest) = extract_aux pat seen rest := by
  simp [extract_aux, hm, hs]

theorem extract_aux_cons_matched_new {pat a : List Char} {seen rest : List (List Char)}
    (hm : lineMatches pat a = true) (hs : a ∉ seen) :
    extract_aux pat seen (a :: rest) = a :: extract_aux pat (a :: seen) rest := by
  simp [extract_aux, hm, hs]

theorem extract_aux_cons_unmatched {pat a : List Char} {seen rest : List (List Char)}
    (hm : lineMatches pat a = false) :
    extract_aux pat seen (a :: rest) = extract_aux pat seen rest := by
  simp [extract_aux, hm]

theorem mem_extract_aux {pat l : List Char} : ∀ {ls seen : List (List Char)},
    l ∈ extract_aux pat seen ls ↔ l ∈ ls ∧ lineMatches pat l = true ∧ l ∉ seen := by
  intro ls
  induction ls with
  | nil => intro seen; simp [extract_aux]
  | cons a rest ih =>
    intro seen
    by_cases hm : lineMatches pat a = true
    · by_cases hs : a ∈ seen
      · rw [extract_aux_cons_matched_seen hm hs, ih]
        constructor
        · rintro ⟨h1, h2, h3⟩
          exact ⟨List.mem_cons_of_mem _ h1, h2, h3⟩
        · rintro ⟨h1, h2, h3⟩
          rcases List.mem_cons.mp h1 with rfl | h1'
          · exact absurd hs h3
          · exact ⟨h1', h2, h3⟩
      · rw [extract_aux_cons_matched_new hm hs]
        simp only [List.mem_cons, ih]
        constructor
        · rintro (rfl | ⟨h1, h2, h3⟩)
          · exact ⟨Or.inl rfl, hm, hs⟩
          · exact ⟨Or.inr h1, h2, fun hl => h3 (Or.inr hl)⟩
        · rintro ⟨h1, h2, h3⟩
          by_cases hla : l = a
          · exact Or.inl hla
          · rcases h1 with rfl | h1'
            · exact absurd rfl hla
            · exact Or.inr ⟨h1', h2, fun hl => hl.elim hla h3⟩
    · have hm' : lineMatches pat a = false := Bool.not_eq_true _ ▸ eq_false_of_ne_true hm
      rw [extract_aux_cons_unmatched hm', ih]
      constructor
      · rintro ⟨h1, h2, h3⟩
        exact ⟨List.mem_cons_of_mem _ h1, h2, h3⟩
      · rintro ⟨h1, h2, h3⟩
        rcases List.mem_cons.mp h1 with rfl | h1'
        · rw [h2] at hm'; cases hm'
        · exact ⟨h1', h2, h3⟩

theorem nodup_extract_aux (pat : List Char) : ∀ (ls seen : List (List Char)),
    (extract_aux pat seen ls).Nodup := by
  intro ls
  induction ls with
  | nil => intro seen; simp [extract_aux]
  | cons a rest ih =>
    intro seen
    by_cases hm : lineMatches pat a = true
    · by_cases hs : a ∈ seen
      · rw [extract_aux_cons_matched_seen hm hs]
        exact ih seen
      · rw [extract_aux_cons_matched_new hm hs]
        refine List.nodup_cons.mpr ⟨fun hmem => ?_, ih _⟩
        exact (mem_extract_aux.mp hmem).2.2 (List.mem_cons_self a seen)
    · have hm' : lineMatches pat a = false := eq_false_of_ne_true hm
      rw [extract_aux_cons_unmatched hm']
      exact ih seen

theorem firstIdx_cons_self {a : List Char} {bs : List (List Char)} :
    firstIdx a (a :: bs) = 0 := by
  simp [firstIdx]

theorem firstIdx_cons_ne {a b : List Char} (h : a ≠ b) {bs : List (List Char)} :
    firstIdx a (b :: bs) = firstIdx a bs + 1 := by
  simp [firstIdx, h]

theorem extract_aux_order (pat : List Char) : ∀ (ls seen : List (List Char))
    (a b : List Char), a ∈ extract_aux pat seen ls → b ∈ extract_aux pat seen ls →
    (firstIdx a (extract_aux pat seen ls) ≤ firstIdx b (extract_aux pat seen ls) ↔
      firstIdx a ls ≤ firstIdx b ls) := by
  intro ls
  induction ls with
  | nil =>
    intro seen a b ha _hb
    simp [extract_aux] at ha
  | cons c rest ih =>
    intro seen a b ha hb
    by_cases hm : lineMatches pat c = true
    · by_cases hs : c ∈ seen
      · rw [extract_aux_cons_matched_seen hm hs] at ha hb ⊢
        have hac : a ≠ c := fun h => (mem_extract_aux.mp ha).2.2 (h ▸ hs)
        have hbc : b ≠ c := fun h => (mem_extract_aux.mp hb).2.2 (h ▸ hs)
        rw [firstIdx_cons_ne hac, firstIdx_cons_ne hbc]
        have hih := ih seen a b ha hb
        omega
      · rw [extract_aux_cons_matched_new hm hs] at ha hb ⊢
        by_cases hac : a = c
        · subst hac
          simp [firstIdx_cons_self, Nat.zero_le]
        · have ha' : a ∈ extract_aux pat (c :: seen) rest := by
            rcases List.mem_cons.mp ha with h | h
            · exact absurd h hac
            · exact h
          by_cases hbc : b = c
          · subst hbc
            rw [firstIdx_cons_self, firstIdx_cons_self, firstIdx_cons_ne hac,
              firstIdx_cons_ne hac]
            omega
          · have hb' : b ∈ extract_aux pat (c :: seen) rest := by
              rcases List.mem_cons.mp hb with h | h
              · exact absurd h hbc
              · exact h
            rw [firstIdx_cons_ne hac, firstIdx_cons_ne hbc, firstIdx_cons_ne hac,
              firstIdx_cons_ne hbc]
            have hih := ih (c :: seen) a b ha' hb'
            omega
    · have hm' : lineMatches pat c = false := eq_false_of_ne_true hm
      rw [extract_aux_cons_unmatched hm'] at ha hb ⊢
      have hac : a ≠ c := by
        intro h
        have hma := (mem_extract_aux.mp ha).2.1
        rw [h, hm'] at hma
        cases hma
      have hbc : b ≠ c := by
        intro h
        have hmb := (mem_extract_aux.mp hb).2.1
        rw [h, hm'] at hmb
        cases hmb
      rw [firstIdx_cons_ne hac, firstIdx_cons_ne hbc]
      have hih := ih seen a b ha hb
      omega

/-- C9: each filter script writes exactly the input lines whose lowercased
text contains its pattern (`"error:"` for `filter_errors.py`, `"warning:"`
for `filter_warnings.py`), each distinct matching line exactly once, ordered
by first occurrence in the input; non-matching lines and already-seen
duplicates are never written. -/
theorem filter_scripts_write_unique_matching_lines (lines : List (List Char)) :
    ((∀ l, l ∈ extract_unique_error_lines lines ↔
        l ∈ lines ∧ lineMatches errorPat l = true) ∧
      (extract_unique_error_lines lines).Nodup ∧
      ∀ a ∈ extract_unique_error_lines lines, ∀ b ∈ extract_unique_error_lines lines,
        (firstIdx a (extract_unique_error_lines lines) ≤
            firstIdx b (extract_unique_error_lines lines) ↔
          firstIdx a lines ≤ firstIdx b lines)) ∧
    ((∀ l, l ∈ extract_unique_warning_lines lines ↔
        l ∈ lines ∧ lineMatches warningPat l = true) ∧
      (extract_unique_warning_lines lines).Nodup ∧
      ∀ a ∈ extract_unique_warning_lines lines, ∀ b ∈ extract_unique_warning_lines lines,
        (firstIdx a (extract_unique_warning_lines lines) ≤
            firstIdx b (extract_unique_warning_lines lines) ↔
          firstIdx a lines ≤ firstIdx b lines)) := by
  refine ⟨⟨?_, nodup_extract_aux _ _ _, ?_⟩, ?_, nodup_extract_aux _ _ _, ?_⟩
  · intro l
    rw [extract_unique_error_lines, mem_extract_aux]
    simp
  · intro a ha b hb
    exact extract_aux_order errorPat lines [] a b ha hb
  · intro l
    rw [extract_unique_warning_lines, mem_extract_aux]
    simp
  · intro a ha b hb
    exact extract_aux_order warningPat lines [] a b ha hb

theorem filter_scripts_write_unique_matching_lines_witness :
    firstIdx ("error: a".toList)
        (extract_unique_error_lines
          ["error: a".toList, "fine".toList, "b Error: b".toList, "error: a".toList]) ≤
      firstIdx ("b Error: b".toList)
        (extract_unique_error_lines
          ["error: a".toList, "fine".toList, "b Error: b".toList, "error: a".toList]) ↔
    firstIdx ("error: a".toList)
        ["error: a".toList, "fine".toList, "b Error: b".toList, "error: a".toList] ≤
      firstIdx ("b Error: b".toList)
        ["error: a".toList, "fine".toList, "b Error: b".toList, "error: a".toList] :=
  (filter_scripts_write_unique_matching_lines
    ["error: a".toList, "fine".toList, "b Error: b".toList, "error: a".toList]).1.2.2
    ("error: a".toList) (by decide) ("b Error: b".toList) (by decide)

theorem scanChars_problems_mono : ∀ (text : List Char) (idx : Nat) (stack : List Char)
    (problems : List Problem),
    problems.length ≤ (scanChars text idx stack problems).2.length := by
  intro text
  induction text with
  | nil => intro idx stack problems; exact le_refl _
  | cons ch rest ih =>
    intro idx stack problems
    by_cases ho : isOpener ch = true
    · simp only [scanChars, ho, if_true]
      exact ih _ _ _
    · have ho' : isOpener ch = false := eq_false_of_ne_true ho
      by_cases hc : isCloser ch = true
      · cases stack with
        | nil =>
          simp only [scanChars, ho', hc, Bool.false_eq_true, if_false, if_true]
          calc problems.length ≤ (problems ++ [Problem.unexpected ch idx]).length := by
                simp
            _ ≤ _ := ih _ _ _
        | cons top stack' =>
          by_cases ht : top = ch
          · simp only [scanChars, ho', hc, Bool.false_eq_true, if_false, if_true, if_pos ht]
            exact ih _ _ _
          · simp only [scanChars, ho', hc, Bool.false_eq_true, if_false, if_true, if_neg ht]
            calc problems.length ≤ (problems ++ [Problem.unexpected ch idx]).length := by
                  simp
              _ ≤ _ := ih _ _ _
      · have hc' : isCloser ch = false := eq_false_of_ne_true hc
        simp only [scanChars, ho', hc', Bool.false_eq_true, if_false]
        exact ih _ _ _

theorem scanChars_scanOk : ∀ (text : List Char) (idx : Nat) (stack : List Char)
    (problems : List Problem),
    (∀ s, scanOk stack text = some s → scanChars text idx stack problems = (s, problems)) ∧
    (scanOk stack text = none →
      problems.length < (scanChars text idx stack problems).2.length) := by
  intro text
  induction text with
  | nil =>
    intro idx stack problems
    constructor
    · intro s h
      have hs : stack = s := by simpa [scanOk] using h
      simp [scanChars, hs]
    · intro h
      simp [scanOk] at h
  | cons ch rest ih =>
    intro idx stack problems
    by_cases ho : isOpener ch = true
    · constructor
      · intro s h
        simp only [scanChars, ho, if_true]
        refine (ih _ _ _).1 s ?_
        simp only [scanOk, ho, if_true] at h
        exact h
      · intro h
        simp only [scanChars, ho, if_true]
        refine (ih _ _ _).2 ?_
        simp only [scanOk, ho, if_true] at h
        exact h
    · have ho' : isOpener ch = false := eq_false_of_ne_true ho
      by_cases hc : isCloser ch = true
      · cases stack with
        | nil =>
          constructor
          · intro s h
            simp only [scanOk, ho', hc, Bool.false_eq_true, if_false, if_true] at h
            exact Option.noConfusion h
          · intro _h
            simp only [scanChars, ho', hc, Bool.false_eq_true, if_false, if_true]
            calc problems.length < (problems ++ [Problem.unexpected ch idx]).length := by
                  simp
              _ ≤ _ := scanChars_problems_mono _ _ _ _
        | cons top stack' =>
          by_cases ht : top = ch
          · constructor
            · intro s h
              simp only [scanChars, ho', hc, Bool.false_eq_true, if_false, if_true, if_pos ht]
              refine (ih _ _ _).1 s ?_
              simp only [scanOk, ho', hc, Bool.false_eq_true, if_false, if_true, if_pos ht] at h
              exact h
            · intro h
              simp only [scanChars, ho', hc, Bool.false_eq_true, if_false, if_true, if_pos ht]
              refine (ih _ _ _).2 ?_
              simp only [scanOk, ho', hc, Bool.false_eq_true, if_false, if_true, if_pos ht] at h
              exact h
          · constructor
            · intro s h
              simp only [scanOk, ho', hc, Bool.false_eq_true, if_false, if_true, if_neg ht] at h
              exact Option.noConfusion h
            · intro _h
              simp only [scanChars, ho', hc, Bool.false_eq_true, if_false, if_true, if_neg ht]
              calc problems.length < (problems ++ [Problem.unexpected ch idx]).length := by
                    simp
                _ ≤ _ := scanChars_problems_mono _ _ _ _
      · have hc' : isCloser ch = false := eq_false_of_ne_true hc
        constructor
        · intro s h
          simp only [scanChars, ho', hc', Bool.false_eq_true, if_false]
          refine (ih _ _ _).1 s ?_
          simp only [scanOk, ho', hc', Bool.false_eq_true, if_false] at h
          exact h
        · intro h
          simp only [scanChars, ho', hc', Bool.false_eq_true, if_false]
          refine (ih _ _ _).2 ?_
          simp only [scanOk, ho', hc', Bool.false_eq_true, if_false] at h
          exact h

theorem check_file_eq_nil_iff_scanOk (text : List Char) :
    check_file text = [] ↔ scanOk [] text = some [] := by
  constructor
  · intro h
    cases hs : scanOk [] text with
    | none =>
      exfalso
      have hlen := (scanChars_scanOk text 0 [] []).2 hs
      simp only [check_file] at h
      split at h
      · rw [h] at hlen
        simp at hlen
      · simp at h
    | some s =>
      have heq := (scanChars_scanOk text 0 [] []).1 s hs
      simp only [check_file, heq] at h
      split at h
      · rename_i hempty
        rw [List.isEmpty_iff] at hempty
        rw [hempty]
      · simp at h
  · intro hs
    have heq := (scanChars_scanOk text 0 [] []).1 [] hs
    simp [check_file, heq]

theorem scanOk_filter : ∀ (text stack : List Char),
    scanOk stack (text.filter isBracketTok) = scanOk stack text := by
  intro text
  induction text with
  | nil => intro stack; rfl
  | cons c rest ih =>
    intro stack
    by_cases ho : isOpener c = true
    · rw [List.filter_cons_of_pos (by simp [isBracketTok, ho])]
      simp only [scanOk, ho, if_true]
      exact ih _
    · have ho' : isOpener c = false := eq_false_of_ne_true ho
      by_cases hc : isCloser c = true
      · rw [List.filter_cons_of_pos (by simp [isBracketTok, hc])]
        cases stack with
        | nil => simp [scanOk, ho', hc]
        | cons top stack' =>
          by_cases ht : top = c
          · simp only [scanOk, ho', hc, Bool.false_eq_true, if_false, if_true, if_pos ht]
            exact ih _
          · simp [scanOk, ho', hc, ht]
      · have hc' : isCloser c = false := eq_false_of_ne_true hc
        rw [List.filter_cons_of_neg (by simp [isBracketTok, ho', hc'])]
        rw [ih]
        simp [scanOk, ho', hc']

theorem closerFor_not_opener {c : Char} (h : isOpener c = true) :
    isOpener (closerFor c) = false ∧ isCloser (closerFor c) = true := by
  simp only [isOpener, Bool.or_eq_true, decide_eq_true_eq] at h
  rcases h with (rfl | rfl) | rfl <;> exact ⟨rfl, rfl⟩

theorem balanced_scanOk_append {bs : List Char} (h : Balanced bs) :
    ∀ (stack rest : List Char), scanOk stack (bs ++ rest) = scanOk stack rest := by
  induction h with
  | nil => intro stack rest; rfl
  | @wrap c w hop _hw ihw =>
    intro stack rest
    have hlist : (c :: w ++ [closerFor c]) ++ rest = c :: (w ++ ([closerFor c] ++ rest)) := by
      simp
    rw [hlist]
    simp only [scanOk, hop, if_true]
    rw [ihw (closerFor c :: stack) ([closerFor c] ++ rest)]
    rw [List.singleton_append]
    simp only [scanOk, (closerFor_not_opener hop).1, (closerFor_not_opener hop).2,
      Bool.false_eq_true, if_false, if_true, if_pos rfl]
  | @append u v _hu _hv ihu ihv =>
    intro stack rest
    rw [List.append_assoc, ihu, ihv]

theorem scanOk_eq_of_balanced {bs : List Char} (h : Balanced bs) :
    scanOk [] bs = some [] := by
  have hb := balanced_scanOk_append h [] []
  rw [List.append_nil] at hb
  rw [hb]
  rfl

theorem closesStack_append {stack v : List Char} (h : ClosesStack stack v)
    {u : List Char} (hu : Balanced u) : ClosesStack stack (u ++ v) := by
  cases h with
  | base hb => exact ClosesStack.base (Balanced.append hu hb)
  | @step c s u' v' hb hc =>
    rw [← List.append_assoc]
    exact ClosesStack.step (Balanced.append hu hb) hc

theorem scanOk_closes : ∀ (bs stack : List Char), (∀ c ∈ bs, isBracketTok c = true) →
    scanOk stack bs = some [] → ClosesStack stack bs := by
  intro bs
  induction bs with
  | nil =>
    intro stack _ h
    have hs : stack = [] := by simpa [scanOk] using h
    subst hs
    exact ClosesStack.base Balanced.nil
  | cons c rest ih =>
    intro stack hall h
    have hc : isBracketTok c = true := hall c (List.mem_cons_self _ _)
    have hrest : ∀ x ∈ rest, isBracketTok x = true :=
      fun x hx => hall x (List.mem_cons_of_mem _ hx)
    by_cases ho : isOpener c = true
    · have h' : scanOk (closerFor c :: stack) rest = some [] := by
        simp only [scanOk, ho, if_true] at h
        exact h
      have hcs := ih (closerFor c :: stack) hrest h'
      cases hcs with
      | @step d s u v hu hv =>
        have hb : Balanced (c :: u ++ [closerFor c]) := Balanced.wrap ho hu
        have h2 := closesStack_append hv hb
        have hlist : (c :: u ++ [closerFor c]) ++ v = c :: (u ++ closerFor c :: v) := by
          simp
        rw [hlist] at h2
        exact h2
    · have ho' : isOpener c = false := eq_false_of_ne_true ho
      have hcl : isCloser c = true := by
        simp only [isBracketTok, Bool.or_eq_true, ho'] at hc
        simpa using hc
      cases stack with
      | nil =>
        simp only [scanOk, ho', hcl, Bool.false_eq_true, if_false, if_true] at h
        exact Option.noConfusion h
      | cons top s' =>
        by_cases ht : top = c
        · subst ht
          have h' : scanOk s' rest = some [] := by
            simp only [scanOk, ho', hcl, Bool.false_eq_true, if_false, if_true,
              if_pos rfl] at h
            exact h
          have hcs := ih s' hrest h'
          have hstep := @ClosesStack.step top s' [] rest Balanced.nil hcs
          simpa using hstep
        · simp only [scanOk, ho', hcl, Bool.false_eq_true, if_false, if_true,
            if_neg ht] at h
          exact Option.noConfusion h

theorem balanced_of_closesStack_nil {bs : List Char} (h : ClosesStack [] bs) :
    Balanced bs := by
  cases h with
  | base hb => exact hb

/-- C10: `check_file` returns an empty problem list exactly when the
bracket characters of the text are balanced and properly nested (the Dyck
condition on the text's bracket occurrences); otherwise at least one
problem is reported. -/
theorem check_file_empty_iff_balanced (text : List Char) :
    check_file text = [] ↔ Balanced (text.filter isBracketTok) := by
  rw [check_file_eq_nil_iff_scanOk, ← scanOk_filter]
  constructor
  · intro h
    exact balanced_of_closesStack_nil
      (scanOk_closes _ [] (fun c hc => (List.mem_filter.mp hc).2) h)
  · intro h
    exact scanOk_eq_of_balanced h

end FlashAttn
